import Mathlib

/-! Verification of the json-tcp-lb proxy (src/main.go): the line framer,
the buffer pool policy, the worker connect/retry/failover state machine,
the transmit drain loop and the coordinator wiring, shallowly embedded.
Bytes are modelled as natural numbers (a newline is byte 10); a read window
is the slice buf[:n] delivered by one successful conn.Read. -/

namespace JsonTcpLb

/-- Byte value of the ASCII newline character. -/
def newline : Nat := 10

/-- Model of bytes.LastIndexByte applied to buf[:n]: the index of the last
occurrence of c in s, or none when c does not occur (Go returns -1). -/
def lastIndexByte (s : List Nat) (c : Nat) : Option Nat :=
  match s with
  | [] => none
  | b :: rest =>
    match lastIndexByte rest c with
    | some i => some (i + 1)
    | none => if b = c then some 0 else none

/-- One read cycle of receive: given the current accumulation buffer acc
(stringbuf) and the freshly read window, return the records sent on the
channel during this cycle together with the new accumulation buffer. -/
def processWindow (acc window : List Nat) : List (List Nat) × List Nat :=
  match lastIndexByte window newline with
  | some i => ([acc ++ window.take (i + 1)], window.drop (i + 1))
  | none => ([], acc ++ window)

/-- The read loop of receive over a sequence of read windows, starting from
accumulation buffer acc: all records enqueued during the loop, and the
residual accumulation buffer when the loop breaks. -/
def receiveLoop (acc : List Nat) : List (List Nat) → List (List Nat) × List Nat
  | [] => ([], acc)
  | w :: ws =>
    let p := processWindow acc w
    let r := receiveLoop p.2 ws
    (p.1 ++ r.1, r.2)

/-- receive on a connection whose reads yield the given windows and then an
error (for instance a clean close): run the read loop from an empty buffer,
then flush the residual buffer as a final record when its length is positive. -/
def receive (windows : List (List Nat)) : List (List Nat) :=
  let r := receiveLoop [] windows
  if r.2.length > 0 then r.1 ++ [r.2] else r.1

theorem lastIndexByte_eq_none_iff (c : Nat) (s : List Nat) :
    lastIndexByte s c = none ↔ c ∉ s := by
  induction s with
  | nil => simp [lastIndexByte]
  | cons b rest ih =>
    cases hrec : lastIndexByte rest c with
    | none =>
      have hnm : c ∉ rest := ih.mp hrec
      by_cases hbc : b = c <;> simp [lastIndexByte, hrec, hbc, hnm] <;> omega
    | some j =>
      have hm : c ∈ rest := by
        by_contra hc
        rw [ih.mpr hc] at hrec
        exact Option.noConfusion hrec
      simp [lastIndexByte, hrec, hm]

theorem lastIndexByte_eq_some_iff (c : Nat) (s : List Nat) (i : Nat) :
    lastIndexByte s c = some i ↔ (s[i]? = some c ∧ c ∉ s.drop (i + 1)) := by
  induction s generalizing i with
  | nil => simp [lastIndexByte]
  | cons b rest ih =>
    cases hrec : lastIndexByte rest c with
    | none =>
      have hnm : c ∉ rest := (lastIndexByte_eq_none_iff c rest).mp hrec
      cases i with
      | zero =>
        by_cases hbc : b = c <;>
          simp [lastIndexByte, hrec, hbc, hnm]
      | succ j =>
        have hget : rest[j]? ≠ some c := by
          intro hc
          exact hnm (List.getElem?_mem hc)
        by_cases hbc : b = c <;>
          simp [lastIndexByte, hrec, hbc, hget]
    | some j =>
      have hj := (ih j).mp hrec
      have hm : c ∈ rest := List.getElem?_mem hj.1
      have hunfold : lastIndexByte (b :: rest) c = some (j + 1) := by
        simp [lastIndexByte, hrec]
      cases i with
      | zero => simp [lastIndexByte, hrec, hm]
      | succ k =>
        constructor
        · intro h
          rw [hunfold] at h
          have hk : k = j := by injection h with h2; omega
          subst hk
          simpa using hj
        · intro h
          have hrk : lastIndexByte rest c = some k := (ih k).mpr (by simpa using h)
          rw [hrk] at hrec
          injection hrec with h2
          rw [hunfold, h2]

theorem receiveLoop_flatten (ws : List (List Nat)) :
    ∀ acc : List Nat,
      ((receiveLoop acc ws).1).flatten ++ (receiveLoop acc ws).2 = acc ++ ws.flatten := by
  induction ws with
  | nil => intro acc; simp [receiveLoop]
  | cons w ws ih =>
    intro acc
    unfold receiveLoop processWindow
    cases h : lastIndexByte w newline with
    | some i =>
      have hsplit : w.take (i + 1) ++ w.drop (i + 1) = w := List.take_append_drop _ _
      calc ((acc ++ w.take (i + 1)) :: (receiveLoop (w.drop (i + 1)) ws).1).flatten
            ++ (receiveLoop (w.drop (i + 1)) ws).2
          = (acc ++ w.take (i + 1)) ++
              (((receiveLoop (w.drop (i + 1)) ws).1).flatten
                ++ (receiveLoop (w.drop (i + 1)) ws).2) := by
            rw [List.flatten_cons, List.append_assoc]
        _ = (acc ++ w.take (i + 1)) ++ (w.drop (i + 1) ++ ws.flatten) := by rw [ih]
        _ = acc ++ ((w.take (i + 1) ++ w.drop (i + 1)) ++ ws.flatten) := by
            simp only [List.append_assoc]
        _ = acc ++ (w :: ws).flatten := by rw [hsplit, List.flatten_cons]
    | none =>
      simp only [List.nil_append]
      rw [ih (acc ++ w)]
      simp [List.append_assoc]

/-- C1: for an inbound connection whose stream of successful reads is any
sequence of windows followed by a close, the concatenation of all records
receive enqueues equals the concatenation of the bytes read, byte for byte
and in the original relative order. -/
theorem receive_preserves_stream (windows : List (List Nat)) :
    (receive windows).flatten = windows.flatten := by
  unfold receive
  have h := receiveLoop_flatten windows []
  by_cases hres : (receiveLoop [] windows).2.length > 0
  · simp only [hres, if_pos]
    simpa using h
  · simp only [hres, if_neg, not_false_iff]
    have : (receiveLoop [] windows).2 = [] := by
      cases hx : (receiveLoop [] windows).2 with
      | nil => rfl
      | cons a l => rw [hx] at hres; simp at hres
    rw [this] at h
    simpa using h

/-- C2: in each read cycle, when the window contains a newline (the last one
sitting at index i), receive appends the bytes up to and including that
newline to the current accumulation buffer, enqueues that buffer as one
record, and starts a fresh buffer holding exactly the bytes after that
newline; when the window contains no newline the whole window is appended and
nothing is enqueued. Concretely, window "a\nb\nc" with empty residual emits
record "a\nb\n" leaving residual "c", and a following window "d\n" emits
record "cd\n". -/
theorem processWindow_spec :
    (∀ (acc window : List Nat) (i : Nat), window[i]? = some newline →
        newline ∉ window.drop (i + 1) →
        processWindow acc window = ([acc ++ window.take (i + 1)], window.drop (i + 1))) ∧
    (∀ acc window : List Nat, newline ∉ window →
        processWindow acc window = ([], acc ++ window)) ∧
    processWindow [] [97, 10, 98, 10, 99] = ([[97, 10, 98, 10]], [99]) ∧
    processWindow [99] [100, 10] = ([[99, 100, 10]], []) := by
  refine ⟨?_, ?_, by decide, by decide⟩
  · intro acc window i h1 h2
    have hL : lastIndexByte window newline = some i :=
      (lastIndexByte_eq_some_iff newline window i).mpr ⟨h1, h2⟩
    simp [processWindow, hL]
  · intro acc window h
    have hL : lastIndexByte window newline = none :=
      (lastIndexByte_eq_none_iff newline window).mpr h
    simp [processWindow, hL]

theorem processWindow_spec_witness :
    processWindow [99] [97, 10, 98] = ([[99, 97, 10]], [98]) :=
  processWindow_spec.1 [99] [97, 10, 98] 1 (by decide) (by decide)

theorem receiveLoop_cons (acc w : List Nat) (ws : List (List Nat)) :
    receiveLoop acc (w :: ws) =
      ((processWindow acc w).1 ++ (receiveLoop (processWindow acc w).2 ws).1,
       (receiveLoop (processWindow acc w).2 ws).2) := rfl

theorem receiveLoop_records (ws : List (List Nat)) :
    ∀ acc : List Nat, ∀ r ∈ (receiveLoop acc ws).1, r ≠ [] ∧ r.getLast? = some newline := by
  induction ws with
  | nil => intro acc r hr; simp [receiveLoop] at hr
  | cons w ws ih =>
    intro acc r hr
    rw [receiveLoop_cons] at hr
    cases h : lastIndexByte w newline with
    | some i =>
      simp only [processWindow, h, List.mem_append, List.mem_singleton] at hr
      rcases hr with hr | hr
      · subst hr
        have hi : w[i]? = some newline :=
          ((lastIndexByte_eq_some_iff newline w i).mp h).1
        have htake : w.take (i + 1) = w.take i ++ [newline] := by
          rw [List.take_succ, hi]
          rfl
        constructor
        · simp [htake]
        · rw [htake, ← List.append_assoc]
          exact List.getLast?_concat _
      · exact ih _ r hr
    | none =>
      simp only [processWindow, h, List.nil_append] at hr
      exact ih _ r hr

/-- C6: every record receive enqueues is non-empty; every record enqueued
during the read loop ends with a newline byte; and at connection close the
residual accumulation buffer is enqueued as a final record exactly when it is
non-empty, even without a trailing newline. -/
theorem receive_record_invariants (ws : List (List Nat)) :
    (∀ r ∈ receive ws, r ≠ []) ∧
    (∀ r ∈ (receiveLoop [] ws).1, r.getLast? = some newline) ∧
    ((receiveLoop [] ws).2 ≠ [] →
        receive ws = (receiveLoop [] ws).1 ++ [(receiveLoop [] ws).2]) ∧
    ((receiveLoop [] ws).2 = [] → receive ws = (receiveLoop [] ws).1) := by
  refine ⟨?_, ?_, ?_, ?_⟩
  · intro r hr
    unfold receive at hr
    by_cases hres : (receiveLoop [] ws).2.length > 0
    · simp only [hres, if_pos, List.mem_append, List.mem_singleton] at hr
      rcases hr with hr | hr
      · exact (receiveLoop_records ws [] r hr).1
      · subst hr
        intro hc
        rw [hc] at hres
        simp at hres
    · simp only [hres, if_neg, not_false_iff] at hr
      exact (receiveLoop_records ws [] r hr).1
  · intro r hr
    exact (receiveLoop_records ws [] r hr).2
  · intro hne
    unfold receive
    have : (receiveLoop [] ws).2.length > 0 := List.length_pos.mpr hne
    simp [this]
  · intro heq
    unfold receive
    simp [heq]

theorem receive_record_invariants_witness :
    receive [[97, 10], [98]] = (receiveLoop [] [[97, 10], [98]]).1 ++
      [(receiveLoop [] [[97, 10], [98]]).2] :=
  (receive_record_invariants [[97, 10], [98]]).2.2.1 (by decide)

/-! Model of the Worker (src/main.go). Targets are modelled by their index
into the target list of length n; a connection is modelled by the index of
the target it is open to (conn = none means w.conn == nil). Time is in
seconds. dialOk k tells whether the dial of attempt number k succeeds,
cancelled k whether ctx.Err() is non-nil at attempt k, and draws k is the
value rand.Intn(len(w.targets)) returns after failed attempt k. -/

structure Worker where
  id : Nat
  targetIdx : Nat
  target : Nat
  conn : Option Nat
  lastReconnect : Nat
deriving DecidableEq

/-- Model of the backoff update: delay *= 2; if delay > 30s then delay = 30s. -/
def nextDelay (delay : Nat) : Nat :=
  if delay * 2 > 30 then 30 else delay * 2

/-- The loop body of ConnectWithRetries, fuel-indexed: from attempt number k,
current backoff delay and currently selected target index tIdx, return the
final worker, whether the loop returned an error (ctx done), the list of
backoff sleeps performed and the list of target indices dialled, or none when
the fuel runs out with the loop still retrying. -/
def connectAux (dialOk cancelled : Nat → Bool) (draws : Nat → Nat) (now : Nat) :
    Nat → Nat → Nat → Nat → Worker → Option (Worker × Bool × List Nat × List Nat)
  | 0, _, _, _, _ => none
  | fuel + 1, k, delay, tIdx, w =>
    if dialOk k then
      some (⟨w.id, w.targetIdx, tIdx, some tIdx, now⟩, false, [], [tIdx])
    else if cancelled k then
      some (⟨w.id, w.targetIdx, tIdx, w.conn, w.lastReconnect⟩, true, [], [tIdx])
    else
      match connectAux dialOk cancelled draws now fuel (k + 1) (nextDelay delay)
          (draws k) ⟨w.id, w.targetIdx, tIdx, w.conn, w.lastReconnect⟩ with
      | none => none
      | some (w2, e, ss, ts) => some (w2, e, delay :: ss, tIdx :: ts)

/-- Model of Worker.ConnectWithRetries: the loop starts at the assigned
primary target index with a fresh 2-second backoff delay. -/
def connectWithRetries (dialOk cancelled : Nat → Bool) (draws : Nat → Nat)
    (now fuel : Nat) (w : Worker) : Option (Worker × Bool × List Nat × List Nat) :=
  connectAux dialOk cancelled draws now fuel 0 2 w.targetIdx w

/-- Model of Worker.Reconnect: Close (conn becomes nil) then ConnectWithRetries. -/
def reconnect (dialOk cancelled : Nat → Bool) (draws : Nat → Nat)
    (now fuel : Nat) (w : Worker) : Option (Worker × Bool × List Nat × List Nat) :=
  connectWithRetries dialOk cancelled draws now fuel
    ⟨w.id, w.targetIdx, w.target, none, w.lastReconnect⟩

/-- Model of Worker.ConnectIfNeeded at current time now: connect when there is
no connection, reconnect when the last successful connect lies more than
5 minutes (300 s) in the past, otherwise leave the worker untouched. -/
def connectIfNeeded (dialOk cancelled : Nat → Bool) (draws : Nat → Nat)
    (now fuel : Nat) (w : Worker) : Option (Worker × Bool × List Nat × List Nat) :=
  match w.conn with
  | none => connectWithRetries dialOk cancelled draws now fuel w
  | some _ =>
    if now - w.lastReconnect > 300 then reconnect dialOk cancelled draws now fuel w
    else some (w, false, [], [])

/-- The sequence of backoff sleeps produced by m consecutive failures starting
from the given delay. -/
def delaySeq (delay : Nat) : Nat → List Nat
  | 0 => []
  | m + 1 => delay :: delaySeq (nextDelay delay) m

theorem nextDelay_min (j : Nat) :
    nextDelay (min (2 ^ (j + 1)) 30) = min (2 ^ (j + 2)) 30 := by
  rcases Nat.lt_or_ge j 4 with h | h
  · interval_cases j <;> decide
  · have h1 : (30 : Nat) ≤ 2 ^ (j + 1) := by
      calc (30 : Nat) ≤ 2 ^ 5 := by norm_num
        _ ≤ 2 ^ (j + 1) := Nat.pow_le_pow_right (by norm_num) (by omega)
    have h2 : (30 : Nat) ≤ 2 ^ (j + 2) := by
      calc (30 : Nat) ≤ 2 ^ 5 := by norm_num
        _ ≤ 2 ^ (j + 2) := Nat.pow_le_pow_right (by norm_num) (by omega)
    rw [Nat.min_eq_right h1, Nat.min_eq_right h2]
    decide

theorem delaySeq_closed (m : Nat) :
    ∀ j : Nat, delaySeq (min (2 ^ (j + 1)) 30) m =
      (List.range m).map (fun i => min (2 ^ (j + i + 1)) 30) := by
  induction m with
  | zero => intro j; simp [delaySeq]
  | succ m ih =>
    intro j
    rw [delaySeq, nextDelay_min, ih (j + 1), List.range_succ_eq_map, List.map_cons,
      List.map_map]
    refine congrArg₂ List.cons rfl (List.map_congr_left ?_)
    intro i _
    simp only [Function.comp_apply]
    congr 2
    omega

theorem delaySeq_two (m : Nat) :
    delaySeq 2 m = (List.range m).map (fun i => min (2 ^ (i + 1)) 30) := by
  have h := delaySeq_closed m 0
  simpa using h

/-- The target indices dialled by a run starting at attempt number k on index
tIdx with m failures before the final attempt. -/
def triedSeq (draws : Nat → Nat) : Nat → Nat → Nat → List Nat
  | _, tIdx, 0 => [tIdx]
  | k, tIdx, m + 1 => tIdx :: triedSeq draws (k + 1) (draws k) m

theorem triedSeq_closed (draws : Nat → Nat) (m : Nat) :
    ∀ k tIdx : Nat,
      triedSeq draws k tIdx m = tIdx :: (List.range m).map (fun i => draws (k + i)) := by
  induction m with
  | zero => intro k tIdx; simp [triedSeq]
  | succ m ih =>
    intro k tIdx
    rw [triedSeq, ih (k + 1) (draws k), List.range_succ_eq_map, List.map_cons,
      List.map_map]
    refine congrArg₂ List.cons rfl (congrArg₂ List.cons rfl (List.map_congr_left ?_))
    intro i _
    simp only [Function.comp_apply]
    congr 1
    omega

theorem connectAux_run (dialOk : Nat → Bool) (draws : Nat → Nat) (now : Nat) (m : Nat) :
    ∀ (fuel k delay tIdx : Nat) (w : Worker),
      (∀ j, j < m → dialOk (k + j) = false) → dialOk (k + m) = true → m < fuel →
      ∃ w2 : Worker,
        connectAux dialOk (fun _ => false) draws now fuel k delay tIdx w =
          some (w2, false, delaySeq delay m, triedSeq draws k tIdx m) := by
  induction m with
  | zero =>
    intro fuel k delay tIdx w _ hsucc hfuel
    match fuel, hfuel with
    | fuel + 1, _ =>
      refine ⟨⟨w.id, w.targetIdx, tIdx, some tIdx, now⟩, ?_⟩
      have hk : dialOk k = true := by simpa using hsucc
      simp [connectAux, hk, delaySeq, triedSeq]
  | succ m ih =>
    intro fuel k delay tIdx w hfail hsucc hfuel
    match fuel, hfuel with
    | fuel + 1, _ =>
      have h0 : dialOk k = false := by simpa using hfail 0 (by omega)
      obtain ⟨w2, hw2⟩ := ih fuel (k + 1) (nextDelay delay) (draws k)
        ⟨w.id, w.targetIdx, tIdx, w.conn, w.lastReconnect⟩
        (fun j hj => by
          have h := hfail (j + 1) (by omega)
          rw [show k + 1 + j = k + (j + 1) by omega]
          exact h)
        (by
          rw [show k + 1 + m = k + (m + 1) by omega]
          exact hsucc)
        (by omega)
      refine ⟨w2, ?_⟩
      simp [connectAux, h0, hw2, delaySeq, triedSeq]

/-- C3: during one run of ConnectWithRetries in which the first m dial
attempts fail and attempt m succeeds (with cancellation never signalled), the
backoff sleeps before successive failed dial attempts are 2s, 4s, 8s, 16s,
30s, 30s, ... (the i-th sleep is min (2^(i+1)) 30, doubling from 2s capped at
30s); the first attempt dials the assigned primary index and the attempt
after each failure dials exactly the raw random draw rand.Intn(n), so the
next index ranges over the full target index range, the index just tried and
the primary not excluded; and every invocation starts its sleep sequence
again at 2s. -/
theorem connect_backoff_spec (dialOk : Nat → Bool) (draws : Nat → Nat)
    (now m fuel n : Nat) (w : Worker)
    (hfail : ∀ j, j < m → dialOk j = false) (hsucc : dialOk m = true)
    (hfuel : m < fuel) (hdraw : ∀ k, draws k < n) (hprim : w.targetIdx < n) :
    ∃ w2 : Worker,
      connectWithRetries dialOk (fun _ => false) draws now fuel w =
        some (w2, false,
          (List.range m).map (fun i => min (2 ^ (i + 1)) 30),
          w.targetIdx :: (List.range m).map draws) ∧
      ∀ t ∈ w.targetIdx :: (List.range m).map draws, t < n := by
  obtain ⟨w2, hw2⟩ := connectAux_run dialOk draws now m fuel 0 2 w.targetIdx w
    (fun j hj => by simpa using hfail j hj) (by simpa using hsucc) hfuel
  refine ⟨w2, ?_, ?_⟩
  · rw [connectWithRetries, hw2, delaySeq_two, triedSeq_closed]
    simp only [Nat.zero_add]
  · intro t ht
    rcases List.mem_cons.mp ht with h | h
    · rw [h]; exact hprim
    · obtain ⟨i, _, hi⟩ := List.mem_map.mp h
      rw [← hi]
      exact hdraw i

theorem connect_backoff_spec_witness :
    ∃ w2 : Worker,
      connectWithRetries (fun k => decide (2 ≤ k)) (fun _ => false) (fun _ => 0) 0 3
          ⟨1, 0, 0, none, 0⟩ =
        some (w2, false,
          (List.range 2).map (fun i => min (2 ^ (i + 1)) 30),
          (0 : Nat) :: (List.range 2).map (fun _ => (0 : Nat))) ∧
      ∀ t ∈ (0 : Nat) :: (List.range 2).map (fun _ : Nat => (0 : Nat)), t < 1 :=
  connect_backoff_spec (fun k => decide (2 ≤ k)) (fun _ => 0) 0 2 3 1
    ⟨1, 0, 0, none, 0⟩ (by decide) (by decide) (by decide) (fun _ => Nat.one_pos)
    (by decide)

theorem connectAux_head_tried (dialOk cancelled : Nat → Bool) (draws : Nat → Nat)
    (now : Nat) :
    ∀ (fuel k delay tIdx : Nat) (w w2 : Worker) (e : Bool) (ss ts : List Nat),
      connectAux dialOk cancelled draws now fuel k delay tIdx w = some (w2, e, ss, ts) →
      ts.head? = some tIdx := by
  intro fuel
  cases fuel with
  | zero => intro k delay tIdx w w2 e ss ts h; simp [connectAux] at h
  | succ fuel =>
    intro k delay tIdx w w2 e ss ts h
    simp only [connectAux] at h
    split_ifs at h with h1 h2
    · injection h with h3
      have hts : ts = [tIdx] := (congrArg (fun p => p.2.2.2) h3).symm
      rw [hts]
      rfl
    · injection h with h3
      have hts : ts = [tIdx] := (congrArg (fun p => p.2.2.2) h3).symm
      rw [hts]
      rfl
    · cases hrec : connectAux dialOk cancelled draws now fuel (k + 1) (nextDelay delay)
          (draws k) ⟨w.id, w.targetIdx, tIdx, w.conn, w.lastReconnect⟩ with
      | none => rw [hrec] at h; exact absurd h (by simp)
      | some p =>
        obtain ⟨wa, ea, ssa, tsa⟩ := p
        rw [hrec] at h
        injection h with h3
        have hts : ts = tIdx :: tsa := (congrArg (fun p => p.2.2.2) h3).symm
        rw [hts]
        rfl

/-- C5: for a worker holding an established connection, ConnectIfNeeded
leaves the worker completely unchanged while less than 5 minutes have elapsed
since the last successful connect; once more than 5 minutes have elapsed it
closes the current connection and redials starting from the worker's assigned
primary target index (the first index dialled is targetIdx, so a worker that
failed over re-attempts its primary), and when that first dial succeeds the
worker ends up connected to its primary target. -/
theorem connectIfNeeded_spec (dialOk cancelled : Nat → Bool) (draws : Nat → Nat)
    (now fuel : Nat) (w : Worker) (c : Nat) (hc : w.conn = some c) :
    (now - w.lastReconnect < 300 →
        connectIfNeeded dialOk cancelled draws now fuel w = some (w, false, [], [])) ∧
    (now - w.lastReconnect > 300 →
        connectIfNeeded dialOk cancelled draws now fuel w =
          connectWithRetries dialOk cancelled draws now fuel
            ⟨w.id, w.targetIdx, w.target, none, w.lastReconnect⟩ ∧
        (∀ (w2 : Worker) (e : Bool) (ss ts : List Nat),
            connectIfNeeded dialOk cancelled draws now fuel w = some (w2, e, ss, ts) →
            ts.head? = some w.targetIdx) ∧
        (0 < fuel → dialOk 0 = true →
            connectIfNeeded dialOk cancelled draws now fuel w =
              some (⟨w.id, w.targetIdx, w.targetIdx, some w.targetIdx, now⟩, false, [],
                [w.targetIdx]))) := by
  constructor
  · intro hlt
    unfold connectIfNeeded
    rw [hc]
    simp only [if_neg (by omega : ¬ now - w.lastReconnect > 300)]
  · intro hgt
    have hrw : connectIfNeeded dialOk cancelled draws now fuel w =
        connectWithRetries dialOk cancelled draws now fuel
          ⟨w.id, w.targetIdx, w.target, none, w.lastReconnect⟩ := by
      unfold connectIfNeeded
      rw [hc]
      rw [if_pos hgt]
      rfl
    refine ⟨hrw, ?_, ?_⟩
    · intro w2 e ss ts h
      rw [hrw] at h
      exact connectAux_head_tried dialOk cancelled draws now fuel 0 2 w.targetIdx
        ⟨w.id, w.targetIdx, w.target, none, w.lastReconnect⟩ w2 e ss ts h
    · intro hfuel hdial
      rw [hrw]
      cases fuel with
      | zero => omega
      | succ f =>
        unfold connectWithRetries connectAux
        rw [if_pos hdial]

theorem connectIfNeeded_spec_witness :
    connectIfNeeded (fun _ => true) (fun _ => false) (fun _ => 0) 400 1
        ⟨1, 0, 1, some 5, 10⟩ =
      some (⟨1, 0, 0, some 0, 400⟩, false, [], [0]) :=
  ((connectIfNeeded_spec (fun _ => true) (fun _ => false) (fun _ => 0) 400 1
      ⟨1, 0, 1, some 5, 10⟩ 5 rfl).2 (by decide)).2.2 (by decide) rfl

/-- Outcome of one Worker.Write call. nilDeref marks the unconditional
dereference of the connection handle (w.conn.SetDeadline / w.conn.Write) when
w.conn is nil. -/
inductive WriteOut where
  | nilDeref
  | sent
  | failed
deriving DecidableEq

/-- Model of Worker.Write: dereference the connection handle unconditionally;
writeOk tells whether the deadline-bounded write succeeds. -/
def workerWrite (writeOk : Bool) (w : Worker) : WriteOut :=
  match w.conn with
  | none => WriteOut.nilDeref
  | some _ => if writeOk then WriteOut.sent else WriteOut.failed

/-- Result of WriteWithRetries: crashed marks the nil-connection dereference. -/
inductive WWR where
  | crashed
  | delivered (w : Worker)
  | outOfFuel
deriving DecidableEq

/-- Model of Worker.WriteWithRetries: each iteration calls ConnectIfNeeded
discarding its error, then Write; return on success, otherwise Close the
connection and loop. a numbers the write attempts, writeOk a is the outcome
of attempt a, cfuel is the fuel handed to each inner connect loop. -/
def writeWithRetries (dialOk cancelled writeOk : Nat → Bool) (draws : Nat → Nat)
    (now cfuel : Nat) : Nat → Nat → Worker → WWR
  | 0, _, _ => WWR.outOfFuel
  | fuel + 1, a, w =>
    match connectIfNeeded dialOk cancelled draws now cfuel w with
    | none => WWR.outOfFuel
    | some (w1, _, _, _) =>
      match workerWrite (writeOk a) w1 with
      | WriteOut.nilDeref => WWR.crashed
      | WriteOut.sent => WWR.delivered w1
      | WriteOut.failed =>
          writeWithRetries dialOk cancelled writeOk draws now cfuel fuel (a + 1)
            ⟨w1.id, w1.targetIdx, w1.target, none, w1.lastReconnect⟩

theorem connectAux_conn_isSome (dialOk : Nat → Bool) (draws : Nat → Nat) (now : Nat) :
    ∀ (fuel k delay tIdx : Nat) (w w2 : Worker) (e : Bool) (ss ts : List Nat),
      connectAux dialOk (fun _ => false) draws now fuel k delay tIdx w =
        some (w2, e, ss, ts) →
      w2.conn.isSome = true := by
  intro fuel
  induction fuel with
  | zero => intro k delay tIdx w w2 e ss ts h; simp [connectAux] at h
  | succ fuel ih =>
    intro k delay tIdx w w2 e ss ts h
    simp only [connectAux] at h
    split_ifs at h with h1 h2
    · injection h with h3
      have hw : (⟨w.id, w.targetIdx, tIdx, some tIdx, now⟩ : Worker) = w2 :=
        congrArg (fun p => p.1) h3
      rw [← hw]
      rfl
    · exact absurd h2 (by simp)
    · cases hrec : connectAux dialOk (fun _ => false) draws now fuel (k + 1)
          (nextDelay delay) (draws k) ⟨w.id, w.targetIdx, tIdx, w.conn, w.lastReconnect⟩ with
      | none => rw [hrec] at h; exact absurd h (by simp)
      | some p =>
        obtain ⟨wa, ea, ssa, tsa⟩ := p
        rw [hrec] at h
        injection h with h3
        have hw : wa = w2 := congrArg (fun p => p.1) h3
        rw [← hw]
        exact ih (k + 1) (nextDelay delay) (draws k) _ wa ea ssa tsa hrec

theorem connectIfNeeded_conn_isSome (dialOk : Nat → Bool) (draws : Nat → Nat)
    (now fuel : Nat) (w w1 : Worker) (e : Bool) (ss ts : List Nat)
    (h : connectIfNeeded dialOk (fun _ => false) draws now fuel w = some (w1, e, ss, ts)) :
    w1.conn.isSome = true := by
  unfold connectIfNeeded at h
  cases hc : w.conn with
  | none =>
    rw [hc] at h
    exact connectAux_conn_isSome dialOk draws now fuel 0 2 w.targetIdx w w1 e ss ts h
  | some c =>
    rw [hc] at h
    split_ifs at h with h1
    · exact connectAux_conn_isSome dialOk draws now fuel 0 2 w.targetIdx _ w1 e ss ts h
    · injection h with h3
      have hw : w = w1 := congrArg (fun p => p.1) h3
      rw [← hw, hc]
      rfl

/-- C10: Write dereferences the connection handle unconditionally, so on a
worker without a connection it hits the nil dereference; but in every run of
WriteWithRetries under a context that is never cancelled (as transmit
supplies via context.TODO()), the connection is non-nil whenever Write
executes, so the nil dereference is unreachable: the run never crashes. -/
theorem writeWithRetries_no_nil_deref :
    (∀ (b : Bool) (idN pN tN lN : Nat),
        workerWrite b ⟨idN, pN, tN, none, lN⟩ = WriteOut.nilDeref) ∧
    (∀ (dialOk writeOk : Nat → Bool) (draws : Nat → Nat) (now cfuel fuel a : Nat)
        (w : Worker),
        writeWithRetries dialOk (fun _ => false) writeOk draws now cfuel fuel a w ≠
          WWR.crashed) := by
  constructor
  · intro b idN pN tN lN
    rfl
  · intro dialOk writeOk draws now cfuel fuel
    induction fuel with
    | zero => intro a w; simp [writeWithRetries]
    | succ fuel ih =>
      intro a w
      simp only [writeWithRetries]
      cases hrec : connectIfNeeded dialOk (fun _ => false) draws now cfuel w with
      | none => simp
      | some p =>
        obtain ⟨w1, e, ss, ts⟩ := p
        have hs : w1.conn.isSome = true :=
          connectIfNeeded_conn_isSome dialOk draws now cfuel w w1 e ss ts hrec
        obtain ⟨c, hc⟩ := Option.isSome_iff_exists.mp hs
        cases hwo : workerWrite (writeOk a) w1 with
        | nilDeref =>
          exfalso
          unfold workerWrite at hwo
          rw [hc] at hwo
          split_ifs at hwo <;> exact absurd hwo (by simp)
        | sent => simp [hwo]
        | failed =>
          simp only [hwo]
          exact ih (a + 1) ⟨w1.id, w1.targetIdx, w1.target, none, w1.lastReconnect⟩

theorem writeWithRetries_no_nil_deref_witness :
    writeWithRetries (fun _ => true) (fun _ => false) (fun _ => true) (fun _ => 0)
        0 1 1 0 ⟨1, 0, 0, none, 0⟩ ≠ WWR.crashed :=
  writeWithRetries_no_nil_deref.2 (fun _ => true) (fun _ => true) (fun _ => 0) 0 1 1 0
    ⟨1, 0, 0, none, 0⟩

/-! Model of the transmit select loop (drain behaviour). An event is one
served select case: a 1-second ticker poll, the context-done signal, or a
record arriving on the output channel. -/

inductive Ev where
  | tick
  | done
  | recv (b : List Nat)
deriving DecidableEq

/-- State of the transmit loop: the exit flag set on cancellation, the count
of ticks since the last received record, whether the outbound connection has
been closed, and the records delivered so far (WriteWithRetries delivers each
record completely inside the event that dequeued it). -/
structure TState where
  exitFlag : Bool
  idleCount : Nat
  closed : Bool
  delivered : List (List Nat)
deriving DecidableEq

/-- Run of the transmit select loop over a sequence of served events: the
final state and whether the loop returned (exited) before consuming all
events. -/
def transmitRun : List Ev → TState → TState × Bool
  | [], s => (s, false)
  | Ev.tick :: rest, s =>
    if s.exitFlag = true ∧ 5 ≤ s.idleCount + 1 then
      (⟨s.exitFlag, s.idleCount + 1, true, s.delivered⟩, true)
    else transmitRun rest ⟨s.exitFlag, s.idleCount + 1, s.closed, s.delivered⟩
  | Ev.done :: rest, s => transmitRun rest ⟨true, s.idleCount, s.closed, s.delivered⟩
  | Ev.recv b :: rest, s =>
      transmitRun rest ⟨s.exitFlag, 0, s.closed, s.delivered ++ [b]⟩

/-- The records carried by the recv events of an event list, in order. -/
def recvRecords : List Ev → List (List Nat)
  | [] => []
  | Ev.recv b :: rest => b :: recvRecords rest
  | Ev.tick :: rest => recvRecords rest
  | Ev.done :: rest => recvRecords rest

/-- C4 counterexample: a worker that dequeued one record and then sees the
cancellation signal with nothing queued does not exit immediately — four
subsequent one-second polls still leave it inside its loop, because exit
requires five polls since the last record. -/
theorem transmit_no_immediate_exit :
    (transmitRun [Ev.recv [10], Ev.done, Ev.tick, Ev.tick, Ev.tick, Ev.tick]
      ⟨false, 0, false, []⟩).2 = false := by decide

/-- C4 (amended): after the cancellation signal a worker exits its loop only
at a one-second poll, namely the first poll at which at least 5 consecutive
polls since the last dequeued record (polls preceding the signal included)
have observed no record — not immediately when nothing is queued; it closes
its outbound connection on exit; receiving a record resets the idle-poll
count and is delivered in full before the next event; and every run delivers
exactly the records of the events processed before exit, in order. -/
theorem transmit_drain_spec :
    (∀ s : TState, (transmitRun [Ev.tick] s).2 = true ↔
        (s.exitFlag = true ∧ 4 ≤ s.idleCount)) ∧
    (∀ s : TState, (transmitRun [Ev.tick] s).2 = true →
        (transmitRun [Ev.tick] s).1.closed = true) ∧
    (∀ (s : TState) (b : List Nat),
        (transmitRun [Ev.done] s).2 = false ∧
        (transmitRun [Ev.recv b] s).2 = false ∧
        (transmitRun [Ev.recv b] s).1.delivered = s.delivered ++ [b] ∧
        (transmitRun [Ev.recv b] s).1.idleCount = 0 ∧
        (transmitRun [Ev.done] s).1.exitFlag = true) ∧
    (∀ (evs : List Ev) (s : TState), ∃ p q : List Ev, evs = p ++ q ∧
        (transmitRun evs s).1.delivered = s.delivered ++ recvRecords p ∧
        ((transmitRun evs s).2 = false → p = evs)) := by
  refine ⟨?_, ?_, ?_, ?_⟩
  · intro s
    by_cases h : s.exitFlag = true ∧ 5 ≤ s.idleCount + 1
    · rw [transmitRun, if_pos h]
      exact ⟨fun _ => ⟨h.1, by omega⟩, fun _ => rfl⟩
    · rw [transmitRun, if_neg h]
      constructor
      · intro hc
        exact absurd hc (by simp [transmitRun])
      · intro hc
        exact absurd ⟨hc.1, by omega⟩ h
  · intro s
    by_cases h : s.exitFlag = true ∧ 5 ≤ s.idleCount + 1
    · intro _
      rw [transmitRun, if_pos h]
    · rw [transmitRun, if_neg h]
      intro hc
      exact absurd hc (by simp [transmitRun])
  · intro s b
    refine ⟨rfl, rfl, ?_, rfl, rfl⟩
    simp [transmitRun]
  · intro evs
    induction evs with
    | nil =>
      intro s
      exact ⟨[], [], rfl, by simp [transmitRun, recvRecords], fun _ => rfl⟩
    | cons e rest ih =>
      intro s
      cases e with
      | tick =>
        by_cases h : s.exitFlag = true ∧ 5 ≤ s.idleCount + 1
        · refine ⟨[], Ev.tick :: rest, rfl, ?_, ?_⟩
          · rw [transmitRun, if_pos h]
            simp [recvRecords]
          · rw [transmitRun, if_pos h]
            intro hc
            exact absurd hc (by simp)
        · obtain ⟨p, q, hpq, hdel, hexit⟩ :=
            ih ⟨s.exitFlag, s.idleCount + 1, s.closed, s.delivered⟩
          refine ⟨Ev.tick :: p, q, by rw [hpq]; rfl, ?_, ?_⟩
          · rw [transmitRun, if_neg h]
            simpa [recvRecords] using hdel
          · rw [transmitRun, if_neg h]
            intro hc
            rw [hexit hc]
      | done =>
        obtain ⟨p, q, hpq, hdel, hexit⟩ :=
          ih ⟨true, s.idleCount, s.closed, s.delivered⟩
        refine ⟨Ev.done :: p, q, by rw [hpq]; rfl, ?_, ?_⟩
        · rw [transmitRun]
          simpa [recvRecords] using hdel
        · rw [transmitRun]
          intro hc
          rw [hexit hc]
      | recv b =>
        obtain ⟨p, q, hpq, hdel, hexit⟩ :=
          ih ⟨s.exitFlag, 0, s.closed, s.delivered ++ [b]⟩
        refine ⟨Ev.recv b :: p, q, by rw [hpq]; rfl, ?_, ?_⟩
        · rw [transmitRun]
          rw [hdel]
          simp [recvRecords]
        · rw [transmitRun]
          intro hc
          rw [hexit hc]

theorem transmit_drain_spec_witness :
    (transmitRun [Ev.tick] ⟨true, 4, false, []⟩).2 = true :=
  (transmit_drain_spec.1 ⟨true, 4, false, []⟩).mpr (by decide)

/-! Model of the buffer pool hand-back in transmit. -/

/-- Model of a bytes.Buffer as the pool policy sees it: length and capacity. -/
structure GoBuffer where
  len : Nat
  cap : Nat
deriving DecidableEq

/-- Model of bytes.Buffer.Reset: zero length, capacity retained. -/
def bufferReset (b : GoBuffer) : GoBuffer := ⟨0, b.cap⟩

/-- Model of the pool hand-back after a successful send in transmit: a buffer
with capacity at most 1 MiB is reset and returned to bufPool, any other
buffer is dropped. -/
def poolAfterSend (pool : List GoBuffer) (b : GoBuffer) : List GoBuffer :=
  if b.cap ≤ 1024 * 1024 then bufferReset b :: pool else pool

/-- C7 counterexample: a buffer of capacity exactly 1 MiB is not below the
threshold, yet transmit returns it to the pool — refuting pooling "if and
only if its capacity is below the 1 MiB threshold". -/
theorem poolAfterSend_boundary :
    poolAfterSend [] ⟨5, 1024 * 1024⟩ = [⟨0, 1024 * 1024⟩] ∧
    ¬(1024 * 1024 < 1024 * 1024) := by decide

/-- C7 (amended): after a worker successfully transmits a record, the buffer
is returned to the pool if and only if its capacity is at most 1 MiB; any
returned buffer is first reset to zero length retaining its capacity; a
buffer whose capacity exceeds the threshold is never pooled. -/
theorem poolAfterSend_spec (pool : List GoBuffer) (b : GoBuffer) :
    (b.cap ≤ 1024 * 1024 →
        poolAfterSend pool b = bufferReset b :: pool ∧
        (bufferReset b).len = 0 ∧ (bufferReset b).cap = b.cap) ∧
    (1024 * 1024 < b.cap → poolAfterSend pool b = pool) := by
  constructor
  · intro h
    exact ⟨by rw [poolAfterSend, if_pos h], rfl, rfl⟩
  · intro h
    rw [poolAfterSend, if_neg (by omega)]

theorem poolAfterSend_spec_witness :
    poolAfterSend [] ⟨3, 16384⟩ = bufferReset ⟨3, 16384⟩ :: [] ∧
    (bufferReset ⟨3, 16384⟩).len = 0 ∧
    (bufferReset ⟨3, 16384⟩).cap = (⟨3, 16384⟩ : GoBuffer).cap :=
  (poolAfterSend_spec [] ⟨3, 16384⟩).1 (by decide)

/-! Model of the coordinator wiring in proxy and listenAndProxy. -/

/-- Queue capacity chosen by proxy: make(chan *bytes.Buffer, connections*len(targets)*2). -/
def queueCapacity (connections nTargets : Nat) : Nat :=
  connections * nTargets * 2

/-- The workers proxy spawns: for each i below connections*len(targets) a
worker with id i+1 and primary target index i % len(targets). -/
def proxyWorkers (connections nTargets : Nat) : List (Nat × Nat) :=
  (List.range (connections * nTargets)).map (fun i => (i + 1, i % nTargets))

theorem range_mod_count (t p : Nat) (hp : p < t) :
    ∀ c : Nat, ((List.range (c * t)).filter (fun i => i % t == p)).length = c := by
  intro c
  induction c with
  | zero => simp
  | succ c ih =>
    have hct : (c + 1) * t = c * t + t := by ring
    rw [hct, List.range_add, List.filter_append, List.length_append, ih]
    have hmap : ((List.range t).map (fun x => c * t + x)).filter (fun i => i % t == p)
        = ((List.range t).filter
            ((fun i => i % t == p) ∘ (fun x => c * t + x))).map (fun x => c * t + x) :=
      List.map_filter _ _
    rw [hmap, List.length_map]
    have hcong : (List.range t).filter ((fun i => i % t == p) ∘ (fun x => c * t + x))
        = (List.range t).filter (fun x => x == p) := by
      apply List.filter_congr
      intro x hx
      have hxt : x < t := List.mem_range.mp hx
      simp only [Function.comp_apply]
      rw [Nat.add_comm (c * t) x, Nat.add_mul_mod_self_right, Nat.mod_eq_of_lt hxt]
    rw [hcong, ← List.countP_eq_length_filter]
    have h2 : List.countP (fun x => x == p) (List.range t) =
        List.count p (List.range t) := rfl
    rw [h2, List.count_eq_one_of_mem (List.nodup_range t) (List.mem_range.mpr hp)]

/-- C8: with C connections per target and T targets the coordinator creates
exactly C*T workers, assigns the worker spawned from loop index i the primary
target index i mod T (round-robin over the target list: for T > 0 every
target index below T is primary for exactly C workers), and creates the
record queue with capacity exactly C*T*2. -/
theorem proxy_setup_spec (c t : Nat) :
    (proxyWorkers c t).length = c * t ∧
    (∀ i : Nat, i < c * t → (proxyWorkers c t)[i]? = some (i + 1, i % t)) ∧
    queueCapacity c t = c * t * 2 ∧
    (∀ p : Nat, p < t →
        ((proxyWorkers c t).filter (fun w => w.2 == p)).length = c) := by
  refine ⟨by simp [proxyWorkers], ?_, rfl, ?_⟩
  · intro i hi
    simp [proxyWorkers, List.getElem?_map, List.getElem?_range hi]
  · intro p hp
    have hmap : (proxyWorkers c t).filter (fun w => w.2 == p)
        = ((List.range (c * t)).filter
            ((fun w : Nat × Nat => w.2 == p) ∘ (fun i => (i + 1, i % t)))).map
            (fun i => (i + 1, i % t)) := List.map_filter _ _
    rw [hmap, List.length_map]
    have hcong : (List.range (c * t)).filter
          ((fun w : Nat × Nat => w.2 == p) ∘ (fun i => (i + 1, i % t)))
        = (List.range (c * t)).filter (fun i => i % t == p) := rfl
    rw [hcong]
    exact range_mod_count t p hp c

theorem proxy_setup_spec_witness :
    (proxyWorkers 2 3)[4]? = some (5, 4 % 3) :=
  (proxy_setup_spec 2 3).2.1 4 (by decide)

/-- Model of the accept loop in proxy: outerErr is the err variable declared
before the loop; each iteration binds a fresh (shadowing) err from Accept and
breaks on error; the function returns the outer err, which no iteration
assigns. -/
def proxyAcceptLoop (outerErr : Option Nat) : List (Except Nat Nat) → Option Nat
  | [] => outerErr
  | Except.ok _ :: rest => proxyAcceptLoop outerErr rest
  | Except.error _ :: _ => outerErr

/-- The error proxy returns to its caller, given the outcomes of successive
Accept calls. -/
def proxyErr (accepts : List (Except Nat Nat)) : Option Nat :=
  proxyAcceptLoop none accepts

/-- Model of listenAndProxy: a failure to bind the listen address is returned
to the caller (fatal in main); otherwise the result is what proxy returns. -/
def listenAndProxy (bindResult : Except Nat Unit) (accepts : List (Except Nat Nat)) :
    Option Nat :=
  match bindResult with
  | Except.error e => some e
  | Except.ok _ => proxyErr accepts

theorem proxyAcceptLoop_eq (outerErr : Option Nat) (accepts : List (Except Nat Nat)) :
    proxyAcceptLoop outerErr accepts = outerErr := by
  induction accepts with
  | nil => rfl
  | cons a rest ih =>
    cases a with
    | ok v => exact ih
    | error e => rfl

/-- C9: listenAndProxy returns a non-nil error exactly when binding the
configured listen address fails, and it then returns that bind error; errors
from the accept loop are never propagated to the caller (proxy returns nil
whatever the accept outcomes), so failure to bind is the only condition that
aborts the process. -/
theorem listenAndProxy_spec (bindResult : Except Nat Unit)
    (accepts : List (Except Nat Nat)) :
    (listenAndProxy bindResult accepts ≠ none ↔ ∃ e, bindResult = Except.error e) ∧
    (∀ e : Nat, listenAndProxy (Except.error e) accepts = some e) ∧
    (∀ acc2 : List (Except Nat Nat), proxyErr acc2 = none) := by
  refine ⟨?_, fun e => rfl, fun acc2 => proxyAcceptLoop_eq none acc2⟩
  cases bindResult with
  | error e => simp [listenAndProxy]
  | ok u => simp [listenAndProxy, proxyErr, proxyAcceptLoop_eq]

theorem listenAndProxy_spec_witness :
    listenAndProxy (Except.error 7) [] = some 7 :=
  (listenAndProxy_spec (Except.error 7) []).2.1 7

end JsonTcpLb
